import Mathlib

/-!
Shallow embedding of the project-bootstrap and deploy orchestration slice
of the repository (src/unnamed/part_000): `setupProjectDirectory`,
`offerToDeploy`, `runDeploy`, `chooseAccount`, `offerGit`, `gitCommit`,
`isGitInstalled`, `isInsideGitRepo`, `initializeGit`.

External collaborators (node `path`/`fs`, the process runner, the prompt
service, `wranglerLogin`, `listAccounts`, the detected package manager) are
modelled as environment records holding the answers those collaborators
would produce; each step function returns its result together with the
ordered trace of observable effects (commands invoked, advisories printed).
A `crash(msg)` call aborts the pipeline and is modelled as `Except.error`
carrying the message and the context at the moment of the crash; a thrown
JS error that is not a `crash` is the `Failure.thrown` case.
-/

set_option maxRecDepth 4096

deriving instance DecidableEq for Except

/-- Whether `pat` is a leading segment of `s` (character-exact). -/
def leadsWith : List Char → List Char → Bool
  | [], _ => true
  | _ :: _, [] => false
  | p :: ps, c :: cs => p == c && leadsWith ps cs

/-- Whether `pat` occurs as a contiguous substring of `s`: the JS
`String.prototype.includes`. -/
def hasSub (pat : List Char) : List Char → Bool
  | [] => leadsWith pat []
  | c :: cs => leadsWith pat (c :: cs) || hasSub pat cs

/-- JS `split` by a single character (`hostname.split(".")`, and the
`/`-components of a path): every occurrence separates, empty pieces
kept. -/
def splitOnChar (sep : Char) : List Char → List (List Char)
  | [] => [[]]
  | c :: cs =>
    if c == sep then [] :: splitOnChar sep cs
    else
      match splitOnChar sep cs with
      | h :: t => (c :: h) :: t
      | [] => [[c]]

/-- JS `Array.prototype.join` with a one-character separator, as
`.join(".")` uses it. -/
def joinSep (sep : Char) : List (List Char) → List Char
  | [] => []
  | [x] => x
  | x :: y :: t => x ++ sep :: joinSep sep (y :: t)

/-- A fatal outcome: `crash msg` is the helpers' `crash()` (fatal,
user-facing, aborts the pipeline); `thrown` is a propagated JS exception
(for example a non-zero exit of `runCommand` outside a try/catch). -/
inductive Failure where
  | crash (msg : String)
  | thrown
deriving DecidableEq

/-- An observable effect of a step: an external command invocation
(`runCommand` / `runCommands`), or an `updateStatus` advisory line. -/
inductive Eff where
  | cmd (s : String)
  | status (s : String)
deriving DecidableEq

/-- The optional framework descriptor's `config` slice read by this code:
`framework?.config.deployCommand` and `framework?.config.devCommand`. -/
structure FrameworkConfig where
  deployCommand : String
  devCommand : String
deriving DecidableEq

/-- The `ctx.project` record: leaf name and resolved absolute path. -/
structure Project where
  name : String
  path : String
deriving DecidableEq

/-- The tri-state user-intent flags of `PagesGeneratorArgs`: `none` models a
JS `undefined` ("not yet decided"). The `open` flag is named `openIn`
because `open` is a Lean keyword. -/
structure Args where
  deploy : Option Bool
  git : Option Bool
  openIn : Option Bool
deriving DecidableEq

/-- `ctx.account`: the selected account. In the source the reverse-looked-up
display name is typed `string` through an `as string` cast, but
`Array.prototype.find` can return `undefined`, so the name is modelled as
`Option String`. -/
structure Account where
  id : String
  name : Option String
deriving DecidableEq

/-- The mutable session context `PagesGeneratorContext` threaded through
every step (only the fields this slice reads or writes). -/
structure PagesGeneratorContext where
  args : Args
  project : Project
  account : Option Account
  framework : Option FrameworkConfig
  deployedUrl : Option String
deriving DecidableEq

/-- Node `path`/`fs`/`process` collaborators as `setupProjectDirectory`
consumes them: the current working directory, `resolve` of a project name
against it, and `existsSync`. -/
structure PathEnv where
  cwd : String
  resolve : String → String
  existsSync : String → Bool

/-- Node `path.basename` for the normalized absolute paths `resolve`
returns: the last `/`-separated component. -/
def pathBasename (p : String) : String :=
  String.mk ((splitOnChar '/' p.toList).getLastD [])

/-- Node `path.dirname` for the normalized absolute paths `resolve`
returns: everything before the last `/`, with `/` for a top-level entry. -/
def pathDirname (p : String) : String :=
  let d := joinSep '/' ((splitOnChar '/' p.toList).dropLast)
  if d = [] then "/" else String.mk d

/-- The message of the `crash` in `setupProjectDirectory`. -/
def directoryConflictMsg (projectName : String) : String :=
  "Directory `" ++ projectName ++ "` already exists. Please choose a new name."

/-- Source `setupProjectDirectory` (lines 31-53): crash with the
directory-conflict message when the resolved path is not the cwd and a
filesystem entry already exists there; otherwise create the parent
directories (`mkdirSync recursive`, a store effect no later step of this
slice reads), `chdir` to the parent, and return the leaf name and path.
The returned `String` is the new working directory after `chdir`. -/
def setupProjectDirectory (env : PathEnv) (projectName : String) :
    Except Failure (Project × String) :=
  let path := env.resolve projectName
  let isCWD := path == env.cwd
  let existsAlready := env.existsSync path
  if !isCWD && existsAlready then
    .error (.crash (directoryConflictMsg projectName))
  else
    let directory := pathDirname path
    let name := pathBasename path
    .ok ({ name := name, path := path }, directory)

/-- The version-control collaborators as the git helpers consume them: the
result of each external command the helpers may run. `Except.error ()`
models a command that exits non-zero (so `runCommand` throws). -/
structure GitEnv where
  gitVersionOk : Bool
  gitStatus : Except Unit String
  confirmGit : Bool
  gitConfigBranch : Except Unit String
  gitInitBranch : String → Except Unit Unit
  gitInitPlain : Except Unit Unit

/-- Source `isGitInstalled` (lines 258-266): run `git -v`, `true` on
success, `false` when it throws. -/
def isGitInstalled (env : GitEnv) : Bool × List Eff :=
  (env.gitVersionOk, [Eff.cmd "git -v"])

/-- Source `isInsideGitRepo` (lines 272-285): run `git status` in the
directory; inside a repo when the output lacks the literal
"not a git repository"; any failure is treated as "not a repository". -/
def isInsideGitRepo (env : GitEnv) : Bool × List Eff :=
  match env.gitStatus with
  | .ok output =>
      (!(hasSub ("not a git repository".toList) output.toList),
        [Eff.cmd "git status"])
  | .error _ => (false, [Eff.cmd "git status"])

/-- JS nullish coalescing `a ?? b` applied to a value that is already a
`String`: a JS string is never nullish, so the fallback is dead and the
result is the left operand. Kept as a definition so the source's
`defaultBranchName.trim() ?? "main"` stays visible in the model. -/
def jsNullish (a : String) (_fallback : String) : String := a

/-- JS `String.prototype.trim`: strip leading and trailing whitespace. -/
def jsTrim (s : String) : String :=
  String.mk
    (((s.toList.dropWhile Char.isWhitespace).reverse.dropWhile
        Char.isWhitespace).reverse)

/-- Source `initializeGit` (lines 293-310): read the configured
`init.defaultBranch`; initialize with `git init --initial-branch <name>`
where `<name>` is `defaultBranchName.trim() ?? "main"`; any throw inside
the try (a failing config read or a failing branch-aware init) falls back
to one plain `git init`, whose own failure propagates. -/
def initializeGit (env : GitEnv) : Except Unit Unit × List Eff :=
  let cfgCmd := "git config --get init.defaultBranch"
  match env.gitConfigBranch with
  | .error _ =>
      (env.gitInitPlain, [Eff.cmd cfgCmd, Eff.cmd "git init"])
  | .ok defaultBranchName =>
      let branchArg := jsNullish (jsTrim defaultBranchName) "main"
      let initCmd := "git init --initial-branch " ++ branchArg
      match env.gitInitBranch branchArg with
      | .ok _ => (.ok (), [Eff.cmd cfgCmd, Eff.cmd initCmd])
      | .error _ =>
          (env.gitInitPlain, [Eff.cmd cfgCmd, Eff.cmd initCmd, Eff.cmd "git init"])

/-- The `updateStatus` advisory printed when git is missing but was
requested. -/
def gitMissingAdvisory : String :=
  "Couldn't find `git` installed on your machine. Continuing without git."

/-- Source `offerGit` (lines 203-238): bail early (overriding `args.git` to
`false`, with an advisory if git had been requested) when git is not
installed; do nothing more when the directory is already a repository;
otherwise resolve `args.git` (prompting only if still undefined) and, when
`true`, run `initializeGit`, whose failure propagates. -/
def offerGit (env : GitEnv) (ctx : PagesGeneratorContext) :
    Except Unit PagesGeneratorContext × List Eff :=
  let (gitInstalled, t1) := isGitInstalled env
  if !gitInstalled then
    let advisory :=
      if ctx.args.git = some true then [Eff.status gitMissingAdvisory] else []
    (.ok { ctx with args := { ctx.args with git := some false } }, t1 ++ advisory)
  else
    let (insideGitRepo, t2) := isInsideGitRepo env
    if insideGitRepo then (.ok ctx, t1 ++ t2)
    else
      let gitAns := ctx.args.git.getD env.confirmGit
      let ctx1 := { ctx with args := { ctx.args with git := some gitAns } }
      if gitAns then
        let (r, t3) := initializeGit env
        (r.map (fun _ => ctx1), t1 ++ t2 ++ t3)
      else (.ok ctx1, t1 ++ t2)

/-- Whether an effect is a repository-initialization command: a
`runCommand` invocation whose text starts with `git init`. -/
def isInitCmd (e : Eff) : Bool :=
  match e with
  | .cmd s => leadsWith ("git init".toList) s.toList
  | .status _ => false

/-- The prompt/login/account/process collaborators `offerToDeploy` and
`runDeploy` consume: the detected package manager, the `confirmInput`
answer to the deploy question, the `wranglerLogin` outcome, the
`listAccounts` mapping (display name, id) in JS-object insertion order,
the `selectInput` answer among the account options, and the captured
output of the deploy command (`Except.error ()` models a throwing
`runCommand`). -/
structure DeployEnv where
  npm : String
  confirmDeploy : Bool
  loginSuccess : Bool
  accounts : List (String × String)
  selectAnswer : String
  deployOutput : Except Unit String

/-- JS object property read `accounts[name]` over the insertion-ordered
pair list (JS object keys are unique, so the first hit is the value). -/
def jsGet (m : List (String × String)) (k : String) : Option String :=
  (m.find? (fun p => p.fst == k)).map Prod.snd

/-- Source `chooseAccount` (lines 112-145): auto-select the sole account,
otherwise take the `selectInput` answer; then resolve the chosen id back
to its display name with `Object.keys(accounts).find(...)`. The source
casts that lookup `as string`, so an inconsistent mapping yields an
account whose name is `undefined` (`none` here) — no error is raised. -/
def chooseAccount (accounts : List (String × String)) (selectAnswer : String) :
    Account :=
  let keys := accounts.map Prod.fst
  let accountId : String :=
    if keys.length = 1 then (jsGet accounts (keys.headD "")).getD ""
    else selectAnswer
  let accountName : Option String :=
    (accounts.find? (fun p => p.snd == accountId)).map Prod.fst
  { id := accountId, name := accountName }

/-- Source `offerToDeploy` (lines 55-75): resolve `args.deploy` (from the
prior flag when set, else the prompt answer); stop if declined; stop if
`wranglerLogin` fails (leaving `ctx.account` untouched); otherwise bind
the chosen account into the context. -/
def offerToDeploy (env : DeployEnv) (ctx : PagesGeneratorContext) :
    PagesGeneratorContext :=
  let deployAns := ctx.args.deploy.getD env.confirmDeploy
  let ctx1 := { ctx with args := { ctx.args with deploy := some deployAns } }
  if !deployAns then ctx1
  else if !env.loginSuccess then ctx1
  else { ctx1 with account := some (chooseAccount env.accounts env.selectAnswer) }

/-- The characters of the URL scheme name `https`. -/
def httpsName : List Char := ['h', 't', 't', 'p', 's']

/-- The characters of the scheme separator `://` (also the JS
`split("://")` separator in the canonicalization step). -/
def protoSep : List Char := [':', '/', '/']

/-- The characters of `https://`, the literal head of the deployed-URL
pattern. -/
def httpsChars : List Char := httpsName ++ protoSep

/-- The characters of the static-site deployment-host suffix
`.pages.dev`. -/
def sfxPages : List Char := ['.', 'p', 'a', 'g', 'e', 's', '.', 'd', 'e', 'v']

/-- The characters of the compute deployment-host suffix `.workers.dev`. -/
def sfxWorkers : List Char :=
  ['.', 'w', 'o', 'r', 'k', 'e', 'r', 's', '.', 'd', 'e', 'v']

/-- The alternation `\.(pages|workers)\.dev` of the deployed-URL regex,
tried at one position: `pages` before `workers`, as the regex writes it. -/
def suffixAt (cs : List Char) : Option (List Char) :=
  if leadsWith sfxPages cs then some sfxPages
  else if leadsWith sfxWorkers cs then some sfxWorkers
  else none

/-- Whether a list of characters holds a newline (JS `.` does not match
`\n`, so the regex's `.+` cannot cross one). -/
def hasNewline : List Char → Bool
  | [] => false
  | c :: cs => c == '\n' || hasNewline cs

/-- The backtracking of the greedy `.+` of
`/https:\/\/.+\.(pages|workers)\.dev/` at a fixed start: the largest
`k ≤ n` such that `.+` can consume `k` characters of `rest` (at least one,
none of them a newline) with the suffix alternation matching right
after. -/
def greedyFrom (rest : List Char) : Nat → Option (Nat × List Char)
  | 0 => none
  | k + 1 =>
    match suffixAt (rest.drop (k + 1)) with
    | some sfx =>
        if hasNewline (rest.take (k + 1)) then greedyFrom rest k
        else some (k + 1, sfx)
    | none => greedyFrom rest k

/-- A match of `/https:\/\/.+\.(pages|workers)\.dev/` anchored at the head
of `cs`: `https://`, then the greedy middle, then the matched suffix. -/
def matchAt (cs : List Char) : Option (List Char) :=
  if leadsWith httpsChars cs then
    let rest := cs.drop httpsChars.length
    match greedyFrom rest rest.length with
    | some (k, sfx) => some (httpsChars ++ (rest.take k ++ sfx))
    | none => none
  else none

/-- The JS `result.match(deployedUrlRegex)` first match: the leftmost
position where the anchored match succeeds, with the greedy extent taken
there (lines 95-96 of the source). -/
def firstMatch : List Char → Option (List Char)
  | [] => none
  | c :: cs =>
    match matchAt (c :: cs) with
    | some m => some m
    | none => firstMatch cs

/-- Declarative form of "the captured output holds a substring matching the
deployed-URL regex": somewhere in the text, `https://`, then a nonempty
middle free of newlines, then one of the two deployment-host suffixes. -/
def HasDeployUrl (s : List Char) : Prop :=
  ∃ a mid sfx b, s = a ++ (httpsChars ++ (mid ++ (sfx ++ b))) ∧ mid ≠ [] ∧
    hasNewline mid = false ∧ (sfx = sfxPages ∨ sfx = sfxWorkers)

/-- The first occurrence of `sep` (assumed nonempty) in `s`: the pieces
before and after it, or `none` when it does not occur. JS
`s.split("://")` destructured as `[proto, hostname]` reads exactly the
piece before the first occurrence and the piece between the first and
second. -/
def breakOn (sep : List Char) : List Char → Option (List Char × List Char)
  | [] => none
  | c :: cs =>
    if leadsWith sep (c :: cs) then some ([], (c :: cs).drop sep.length)
    else
      match breakOn sep cs with
      | some (a, b) => some (c :: a, b)
      | none => none

/-- Whether `l` ends with `sfx`: JS `String.prototype.endsWith` over
character lists. -/
def endsWithL (sfx l : List Char) : Bool :=
  leadsWith sfx.reverse l.reverse

/-- Lines 104-109 of `runDeploy`: when the deployed URL ends in
`.pages.dev`, split off the protocol at `://`, keep only the last 3
dot-separated labels of the hostname, and reassemble; other URLs pass
through unchanged. `none` models the JS `TypeError` thrown when the URL
holds no `://` at all (then `hostname` is `undefined`), unreachable for a
URL the regex extracted. -/
def canonicalizeListUrl (url : List Char) : Option (List Char) :=
  if endsWithL sfxPages url then
    match breakOn protoSep url with
    | none => none
    | some (proto, afterProto) =>
      let hostname :=
        match breakOn protoSep afterProto with
        | some (h, _) => h
        | none => afterProto
      let parts := splitOnChar '.' hostname
      let keep := parts.drop (parts.length - 3)
      some (proto ++ protoSep ++ joinSep '.' keep)
  else some url

/-- The canonicalization step on the stored `ctx.deployedUrl` string. -/
def canonicalizeDeployedUrl (url : String) : Option String :=
  (canonicalizeListUrl url.toList).map String.mk

/-- The deploy invocation `runDeploy` builds:
`` `${npm} run ${ctx.framework?.config.deployCommand ?? "deploy"}` ``. -/
def deployCmdOf (env : DeployEnv) (ctx : PagesGeneratorContext) : String :=
  env.npm ++ " run " ++
    ((ctx.framework.map FrameworkConfig.deployCommand).getD "deploy")

/-- Source `runDeploy` (lines 77-110): no-op when deploy was explicitly
declined; crash with the missing-account message when no account id is
bound (JS `!ctx.account?.id`, also true for an empty id); run the deploy
command (a throw propagates); extract the first `https://...(pages|workers).dev`
match from the captured output, crashing with the no-deployment-url
message when there is none; store it and canonicalize a `.pages.dev`
URL. The error case carries the context as it stood at the failure. -/
def runDeploy (env : DeployEnv) (ctx : PagesGeneratorContext) :
    Except (Failure × PagesGeneratorContext) PagesGeneratorContext × List Eff :=
  if ctx.args.deploy = some false then (.ok ctx, [])
  else if ((ctx.account.map Account.id).getD "") = "" then
    (.error (.crash "Failed to read Cloudflare account.", ctx), [])
  else
    let deployCmd := deployCmdOf env ctx
    match env.deployOutput with
    | .error _ => (.error (.thrown, ctx), [Eff.cmd deployCmd])
    | .ok result =>
      match firstMatch result.toList with
      | none =>
          (.error (.crash "Failed to find deployment url.", ctx),
            [Eff.cmd deployCmd])
      | some m =>
        let ctx1 := { ctx with deployedUrl := some (String.mk m) }
        match canonicalizeDeployedUrl (String.mk m) with
        | some u => (.ok { ctx1 with deployedUrl := some u }, [Eff.cmd deployCmd])
        | none => (.error (.thrown, ctx1), [Eff.cmd deployCmd])

/-- C4: for every project name, when the absolute path resolved from it is
not the current working directory and a filesystem entry already exists at
that path, `setupProjectDirectory` crashes with the directory-conflict
message; when the resolved path equals the current working directory, an
existing entry there does not cause a failure and the step returns the
leaf name, the path and the new working directory. -/
theorem directory_conflict_check (env : PathEnv) (p : String) :
    (env.resolve p ≠ env.cwd → env.existsSync (env.resolve p) = true →
      setupProjectDirectory env p = .error (.crash (directoryConflictMsg p))) ∧
    (env.resolve p = env.cwd →
      setupProjectDirectory env p =
        .ok ({ name := pathBasename (env.resolve p), path := env.resolve p },
          pathDirname (env.resolve p))) := by
  constructor
  · intro hne hex
    simp [setupProjectDirectory, hex, hne]
  · intro heq
    simp [setupProjectDirectory, heq]

/-- Witness for C4: a sibling directory that already exists crashes, while
resolving to the current working directory succeeds although an entry
exists there. -/
theorem directory_conflict_check_witness :
    setupProjectDirectory
      { cwd := "/home/user", resolve := fun n => "/home/user/" ++ n,
        existsSync := fun q => q == "/home/user/proj" } "proj" =
      .error (.crash (directoryConflictMsg "proj")) ∧
    setupProjectDirectory
      { cwd := "/home/user/proj", resolve := fun n => "/home/user/" ++ n,
        existsSync := fun _ => true } "proj" =
      .ok ({ name := "proj", path := "/home/user/proj" }, "/home/user") := by
  constructor
  · exact (directory_conflict_check
      { cwd := "/home/user", resolve := fun n => "/home/user/" ++ n,
        existsSync := fun q => q == "/home/user/proj" } "proj").1
      (by decide) (by decide)
  · have h := (directory_conflict_check
      { cwd := "/home/user/proj", resolve := fun n => "/home/user/" ++ n,
        existsSync := fun _ => true } "proj").2 (by decide)
    rw [h]; decide

/-- C1 counterexample: with the deploy question answered yes and
`wranglerLogin` failing, `offerToDeploy` returns without binding an
account, and the subsequent `runDeploy` — while executing no deploy
command — aborts with the missing-account fatal crash, contrary to the
claim that the pipeline does not abort with a deploy-related fatal
error. -/
theorem login_failure_claim_cex :
    runDeploy
      { npm := "npm", confirmDeploy := true, loginSuccess := false,
        accounts := [("acme", "acct_1")], selectAnswer := "",
        deployOutput := .ok "" }
      (offerToDeploy
        { npm := "npm", confirmDeploy := true, loginSuccess := false,
          accounts := [("acme", "acct_1")], selectAnswer := "",
          deployOutput := .ok "" }
        { args := { deploy := none, git := none, openIn := none },
          project := { name := "foo", path := "/home/user/foo" },
          account := none, framework := none, deployedUrl := none }) =
      (.error (.crash "Failed to read Cloudflare account.",
          { args := { deploy := some true, git := none, openIn := none },
            project := { name := "foo", path := "/home/user/foo" },
            account := none, framework := none, deployedUrl := none }),
        []) := by
  decide

/-- C1 as amended: when the deploy intent resolves to yes and the login
step fails, `offerToDeploy` skips account selection (the account stays
unbound), and the subsequent `runDeploy` executes no deploy command but
aborts the pipeline with the missing-account fatal crash. -/
theorem login_failure_then_missing_account_crash (env : DeployEnv)
    (ctx : PagesGeneratorContext) (hacct : ctx.account = none)
    (hans : ctx.args.deploy.getD env.confirmDeploy = true)
    (hlogin : env.loginSuccess = false) :
    (offerToDeploy env ctx).account = none ∧
    runDeploy env (offerToDeploy env ctx) =
      (.error (.crash "Failed to read Cloudflare account.",
          offerToDeploy env ctx), []) := by
  have hctx : offerToDeploy env ctx =
      { ctx with args := { ctx.args with deploy := some true } } := by
    simp [offerToDeploy, hans, hlogin]
  rw [hctx]
  refine ⟨hacct, ?_⟩
  simp [runDeploy, hacct]

/-- Witness for the amended C1 at a concrete context and environment. -/
theorem login_failure_then_missing_account_crash_witness :
    runDeploy
      { npm := "npm", confirmDeploy := true, loginSuccess := false,
        accounts := [("acme", "acct_1")], selectAnswer := "",
        deployOutput := .ok "deployed" }
      (offerToDeploy
        { npm := "npm", confirmDeploy := true, loginSuccess := false,
          accounts := [("acme", "acct_1")], selectAnswer := "",
          deployOutput := .ok "deployed" }
        { args := { deploy := some true, git := none, openIn := none },
          project := { name := "foo", path := "/home/user/foo" },
          account := none, framework := none, deployedUrl := none }) =
      (.error (.crash "Failed to read Cloudflare account.",
          offerToDeploy
            { npm := "npm", confirmDeploy := true, loginSuccess := false,
              accounts := [("acme", "acct_1")], selectAnswer := "",
              deployOutput := .ok "deployed" }
            { args := { deploy := some true, git := none, openIn := none },
              project := { name := "foo", path := "/home/user/foo" },
              account := none, framework := none, deployedUrl := none }),
        []) := by
  exact (login_failure_then_missing_account_crash
    { npm := "npm", confirmDeploy := true, loginSuccess := false,
      accounts := [("acme", "acct_1")], selectAnswer := "",
      deployOutput := .ok "deployed" }
    { args := { deploy := some true, git := none, openIn := none },
      project := { name := "foo", path := "/home/user/foo" },
      account := none, framework := none, deployedUrl := none }
    rfl rfl rfl).2

/-- C5: when the version-control binary is unavailable and `args.git` was
`true` on input, the step resolves `args.git` to `false`, emits the
non-fatal advisory, succeeds (no error), and invokes no
repository-initialization command. -/
theorem git_unavailable_overrides_flag (env : GitEnv)
    (ctx : PagesGeneratorContext) (hgit : env.gitVersionOk = false)
    (hreq : ctx.args.git = some true) :
    offerGit env ctx =
      (.ok { ctx with args := { ctx.args with git := some false } },
        [Eff.cmd "git -v", Eff.status gitMissingAdvisory]) ∧
    ((offerGit env ctx).2.any isInitCmd) = false := by
  have h : offerGit env ctx =
      (.ok { ctx with args := { ctx.args with git := some false } },
        [Eff.cmd "git -v", Eff.status gitMissingAdvisory]) := by
    simp [offerGit, isGitInstalled, hgit, hreq]
  refine ⟨h, ?_⟩
  rw [h]
  show ([Eff.cmd "git -v", Eff.status gitMissingAdvisory].any isInitCmd) = false
  decide

/-- Witness for C5 at a concrete environment and context. -/
theorem git_unavailable_overrides_flag_witness :
    offerGit
      { gitVersionOk := false, gitStatus := .error (), confirmGit := true,
        gitConfigBranch := .error (), gitInitBranch := fun _ => .ok (),
        gitInitPlain := .ok () }
      { args := { deploy := none, git := some true, openIn := none },
        project := { name := "foo", path := "/home/user/foo" },
        account := none, framework := none, deployedUrl := none } =
      (.ok { args := { deploy := none, git := some false, openIn := none },
             project := { name := "foo", path := "/home/user/foo" },
             account := none, framework := none, deployedUrl := none },
        [Eff.cmd "git -v", Eff.status gitMissingAdvisory]) := by
  have h := (git_unavailable_overrides_flag
    { gitVersionOk := false, gitStatus := .error (), confirmGit := true,
      gitConfigBranch := .error (), gitInitBranch := fun _ => .ok (),
      gitInitPlain := .ok () }
    { args := { deploy := none, git := some true, openIn := none },
      project := { name := "foo", path := "/home/user/foo" },
      account := none, framework := none, deployedUrl := none }
    rfl rfl).1
  rw [h]

/-- C9: on a directory already under version control (the status query
succeeds and its output lacks the not-a-repository substring), the
version-control step performs no initialization command and leaves the
context untouched; running it a second time (on the unchanged context the
first run returned) again performs none, so the combined trace of both
runs holds no initialization command. -/
theorem already_versioned_no_reinit (env : GitEnv)
    (ctx : PagesGeneratorContext) (out : String)
    (hgit : env.gitVersionOk = true) (hok : env.gitStatus = .ok out)
    (hclean : hasSub ("not a git repository".toList) out.toList = false) :
    offerGit env ctx = (.ok ctx, [Eff.cmd "git -v", Eff.cmd "git status"]) ∧
    (((offerGit env ctx).2 ++ (offerGit env ctx).2).any isInitCmd) = false := by
  have hc := hclean
  simp only [String.toList] at hc
  have h : offerGit env ctx =
      (.ok ctx, [Eff.cmd "git -v", Eff.cmd "git status"]) := by
    simp [offerGit, isGitInstalled, isInsideGitRepo, hgit, hok, hc]
  refine ⟨h, ?_⟩
  rw [h]
  show (([Eff.cmd "git -v", Eff.cmd "git status"] ++
    [Eff.cmd "git -v", Eff.cmd "git status"]).any isInitCmd) = false
  decide

/-- Witness for C9 at a concrete environment and context. -/
theorem already_versioned_no_reinit_witness :
    offerGit
      { gitVersionOk := true, gitStatus := .ok "On branch main", confirmGit := true,
        gitConfigBranch := .error (), gitInitBranch := fun _ => .ok (),
        gitInitPlain := .ok () }
      { args := { deploy := none, git := none, openIn := none },
        project := { name := "foo", path := "/home/user/foo" },
        account := none, framework := none, deployedUrl := none } =
      (.ok { args := { deploy := none, git := none, openIn := none },
             project := { name := "foo", path := "/home/user/foo" },
             account := none, framework := none, deployedUrl := none },
        [Eff.cmd "git -v", Eff.cmd "git status"]) := by
  have h := (already_versioned_no_reinit
    { gitVersionOk := true, gitStatus := .ok "On branch main", confirmGit := true,
      gitConfigBranch := .error (), gitInitBranch := fun _ => .ok (),
      gitInitPlain := .ok () }
    { args := { deploy := none, git := none, openIn := none },
      project := { name := "foo", path := "/home/user/foo" },
      account := none, framework := none, deployedUrl := none }
    "On branch main" rfl rfl (by decide)).1
  rw [h]

/-- C6 at the failing input: when the configured default branch name is
empty (the config query succeeds with empty output), the branch-name-aware
invocation is `git init --initial-branch ` with an EMPTY branch name — the
`?? "main"` fallback is dead code because `trim()` never returns a nullish
value — so the trace never holds `git init --initial-branch main`, and the
branch-aware attempt fails into the plain `git init` fallback. -/
theorem empty_default_branch_uses_empty_name :
    initializeGit
      { gitVersionOk := true, gitStatus := .ok "", confirmGit := true,
        gitConfigBranch := .ok "", gitInitBranch := fun _ => .error (),
        gitInitPlain := .ok () } =
      (.ok (),
        [Eff.cmd "git config --get init.defaultBranch",
         Eff.cmd "git init --initial-branch ", Eff.cmd "git init"]) ∧
    ((initializeGit
      { gitVersionOk := true, gitStatus := .ok "", confirmGit := true,
        gitConfigBranch := .ok "", gitInitBranch := fun _ => .error (),
        gitInitPlain := .ok () }).2.contains
        (Eff.cmd "git init --initial-branch main")) = false := by
  constructor
  · decide
  · decide

/-- Helper: a branch-name-aware init invocation is never the plain
`git init` command (their lengths differ). -/
theorem initBranchCmd_ne_plain (s : String) :
    ("git init --initial-branch " ++ s) ≠ "git init" := by
  intro h
  have h2 := congrArg String.length h
  rw [String.length_append] at h2
  have e1 : ("git init --initial-branch ").length = 26 := rfl
  have e2 : ("git init").length = 8 := rfl
  rw [e1, e2] at h2
  omega

/-- C7 counterexample: when both the branch-name-aware initialization and
the plain fallback fail, `initializeGit` propagates the error — the
fallback path CAN raise, contrary to the claim. -/
theorem plain_init_failure_propagates_cex :
    initializeGit
      { gitVersionOk := true, gitStatus := .ok "", confirmGit := true,
        gitConfigBranch := .ok "trunk", gitInitBranch := fun _ => .error (),
        gitInitPlain := .error () } =
      (.error (),
        [Eff.cmd "git config --get init.defaultBranch",
         Eff.cmd "git init --initial-branch trunk", Eff.cmd "git init"]) := by
  decide

/-- C7 as amended: when the branch-name-aware initialization fails,
initialization is retried exactly once with the plain invocation (exactly
one `git init` appears in the trace, after the failed branch-aware
attempt), and the plain attempt's own outcome — success or raised
failure — becomes the outcome of `initializeGit`. -/
theorem branch_init_fallback_retry (env : GitEnv) (b : String)
    (hcfg : env.gitConfigBranch = .ok b)
    (hfail : env.gitInitBranch (jsNullish (jsTrim b) "main") = .error ()) :
    (initializeGit env).1 = env.gitInitPlain ∧
    (initializeGit env).2 =
      [Eff.cmd "git config --get init.defaultBranch",
       Eff.cmd ("git init --initial-branch " ++ jsNullish (jsTrim b) "main"),
       Eff.cmd "git init"] ∧
    (((initializeGit env).2.filter (fun e => e == Eff.cmd "git init")).length)
      = 1 := by
  have h : initializeGit env =
      (env.gitInitPlain,
        [Eff.cmd "git config --get init.defaultBranch",
         Eff.cmd ("git init --initial-branch " ++ jsNullish (jsTrim b) "main"),
         Eff.cmd "git init"]) := by
    simp [initializeGit, hcfg, hfail]
  have h1 : Eff.cmd "git config --get init.defaultBranch" ≠ Eff.cmd "git init" := by
    decide
  have h2 : Eff.cmd ("git init --initial-branch " ++ jsNullish (jsTrim b) "main")
      ≠ Eff.cmd "git init" := by
    intro hh
    exact initBranchCmd_ne_plain (jsNullish (jsTrim b) "main") (Eff.cmd.inj hh)
  have b1 : (Eff.cmd "git config --get init.defaultBranch" == Eff.cmd "git init")
      = false := beq_eq_false_iff_ne.mpr h1
  have b2 : (Eff.cmd ("git init --initial-branch " ++ jsNullish (jsTrim b) "main")
      == Eff.cmd "git init") = false := beq_eq_false_iff_ne.mpr h2
  refine ⟨by rw [h], by rw [h], ?_⟩
  rw [h]
  simp [List.filter, b1, b2]

/-- Witness for the amended C7: config reads `trunk`, the branch-aware init
fails, the plain retry succeeds and its success is the step's outcome. -/
theorem branch_init_fallback_retry_witness :
    (initializeGit
      { gitVersionOk := true, gitStatus := .ok "", confirmGit := true,
        gitConfigBranch := .ok "trunk", gitInitBranch := fun _ => .error (),
        gitInitPlain := .ok () }).1 = Except.ok () ∧
    (initializeGit
      { gitVersionOk := true, gitStatus := .ok "", confirmGit := true,
        gitConfigBranch := .ok "trunk", gitInitBranch := fun _ => .error (),
        gitInitPlain := .ok () }).2 =
      [Eff.cmd "git config --get init.defaultBranch",
       Eff.cmd ("git init --initial-branch " ++ jsNullish (jsTrim "trunk") "main"),
       Eff.cmd "git init"] := by
  have h := branch_init_fallback_retry
    { gitVersionOk := true, gitStatus := .ok "", confirmGit := true,
      gitConfigBranch := .ok "trunk", gitInitBranch := fun _ => .error (),
      gitInitPlain := .ok () } "trunk" rfl rfl
  exact ⟨h.1, h.2.1⟩

/-- C8 counterexample: with two accounts and a chosen id that maps back to
no name, `chooseAccount` does not fail — there is no `AccountLookupError`
anywhere in the code — it returns normally with the chosen id and an
undefined (`none`) display name. -/
theorem inconsistent_mapping_no_error_cex :
    chooseAccount [("alice", "id_1"), ("bob", "id_2")] "id_3" =
      { id := "id_3", name := none } := by
  decide

/-- C8 as amended: after selection among several accounts the chosen id is
resolved back to a display name by reverse lookup over the forward
name-to-id mapping; when the mapping is inconsistent (the id maps back to
no entry) the step does not fail but stores the chosen id with an
undefined name, and when the lookup finds an entry its name is stored. -/
theorem reverse_lookup_stores_undefined_name
    (accounts : List (String × String)) (sel : String)
    (hmulti : (accounts.map Prod.fst).length ≠ 1) :
    (accounts.find? (fun p => p.snd == sel) = none →
      chooseAccount accounts sel = { id := sel, name := none }) ∧
    (∀ nm i, accounts.find? (fun p => p.snd == sel) = some (nm, i) →
      chooseAccount accounts sel = { id := sel, name := some nm }) := by
  simp only [List.length_map] at hmulti
  constructor
  · intro hmiss
    simp [chooseAccount, hmulti, hmiss]
  · intro nm i hfound
    simp [chooseAccount, hmulti, hfound]

/-- Witness for the amended C8: both the inconsistent and the consistent
reverse lookup at concrete mappings. -/
theorem reverse_lookup_stores_undefined_name_witness :
    chooseAccount [("acme", "acct_1"), ("beta", "acct_2")] "nope" =
      { id := "nope", name := none } ∧
    chooseAccount [("acme", "acct_1"), ("beta", "acct_2")] "acct_2" =
      { id := "acct_2", name := some "beta" } := by
  constructor
  · exact (reverse_lookup_stores_undefined_name
      [("acme", "acct_1"), ("beta", "acct_2")] "nope" (by decide)).1 (by decide)
  · exact (reverse_lookup_stores_undefined_name
      [("acme", "acct_1"), ("beta", "acct_2")] "acct_2" (by decide)).2
      "beta" "acct_2" (by decide)

theorem leadsWith_iff (p : List Char) : ∀ s, leadsWith p s = true ↔ ∃ t, s = p ++ t := by
  induction p with
  | nil => intro s; simp [leadsWith]
  | cons x ps ih =>
    intro s
    cases s with
    | nil => simp [leadsWith]
    | cons c cs =>
      simp only [leadsWith, Bool.and_eq_true, beq_iff_eq]
      constructor
      · rintro ⟨rfl, h2⟩
        obtain ⟨t, rfl⟩ := (ih cs).mp h2
        exact ⟨t, rfl⟩
      · rintro ⟨t, ht⟩
        rw [List.cons_append] at ht
        injection ht with h1 h2
        exact ⟨h1.symm, (ih cs).mpr ⟨t, h2⟩⟩

theorem leadsWith_append_self (p t : List Char) : leadsWith p (p ++ t) = true :=
  (leadsWith_iff p (p ++ t)).mpr ⟨t, rfl⟩

theorem suffixAt_sound (cs sfx : List Char) (h : suffixAt cs = some sfx) :
    (sfx = sfxPages ∨ sfx = sfxWorkers) ∧ ∃ t, cs = sfx ++ t := by
  unfold suffixAt at h
  split at h
  · injection h with h; subst h
    exact ⟨Or.inl rfl, (leadsWith_iff _ _).mp (by assumption)⟩
  · split at h
    · injection h with h; subst h
      exact ⟨Or.inr rfl, (leadsWith_iff _ _).mp (by assumption)⟩
    · cases h

theorem suffixAt_of_pages (t : List Char) :
    suffixAt (sfxPages ++ t) = some sfxPages := by
  unfold suffixAt
  rw [if_pos (leadsWith_append_self _ _)]

theorem leadsWith_pages_workers (t : List Char) :
    leadsWith sfxPages (sfxWorkers ++ t) = false := rfl

theorem suffixAt_of_workers (t : List Char) :
    suffixAt (sfxWorkers ++ t) = some sfxWorkers := by
  unfold suffixAt
  rw [leadsWith_pages_workers]
  simp [leadsWith_append_self]

theorem greedyFrom_sound (rest : List Char) :
    ∀ n k sfx, greedyFrom rest n = some (k, sfx) →
      1 ≤ k ∧ suffixAt (rest.drop k) = some sfx ∧
        hasNewline (rest.take k) = false := by
  intro n
  induction n with
  | zero => intro k sfx h; simp [greedyFrom] at h
  | succ n ih =>
    intro k sfx h
    unfold greedyFrom at h
    cases hsf : suffixAt (rest.drop (n + 1)) with
    | none => rw [hsf] at h; exact ih k sfx h
    | some s =>
      rw [hsf] at h
      dsimp only [] at h
      by_cases hnl : hasNewline (rest.take (n + 1)) = true
      · rw [if_pos hnl] at h; exact ih k sfx h
      · rw [if_neg hnl] at h
        injection h with h
        injection h with h1 h2
        subst h1; subst h2
        exact ⟨by omega, hsf, Bool.not_eq_true _ ▸ hnl⟩

theorem greedyFrom_complete (rest : List Char) :
    ∀ n k, 1 ≤ k → k ≤ n → suffixAt (rest.drop k) ≠ none →
      hasNewline (rest.take k) = false → greedyFrom rest n ≠ none := by
  intro n
  induction n with
  | zero => intro k h1 h2 _ _; omega
  | succ n ih =>
    intro k h1 h2 hsf hnl
    unfold greedyFrom
    cases hs : suffixAt (rest.drop (n + 1)) with
    | some s =>
      dsimp only []
      by_cases hn : hasNewline (rest.take (n + 1)) = true
      · rw [if_pos hn]
        rcases Nat.lt_or_ge k (n + 1) with hlt | hge
        · exact ih k h1 (by omega) hsf hnl
        · have hk : k = n + 1 := by omega
          subst hk
          rw [hnl] at hn
          cases hn
      · rw [if_neg hn]; simp
    | none =>
      dsimp only []
      rcases Nat.lt_or_ge k (n + 1) with hlt | hge
      · exact ih k h1 (by omega) hsf hnl
      · have hk : k = n + 1 := by omega
        subst hk
        exact absurd hs hsf

theorem matchAt_sound (cs m : List Char) (h : matchAt cs = some m) :
    ∃ mid sfx t, cs = httpsChars ++ (mid ++ (sfx ++ t)) ∧
      m = httpsChars ++ (mid ++ sfx) ∧ mid ≠ [] ∧
      hasNewline mid = false ∧ (sfx = sfxPages ∨ sfx = sfxWorkers) := by
  unfold matchAt at h
  by_cases hl : leadsWith httpsChars cs = true
  · rw [if_pos hl] at h
    obtain ⟨t0, ht0⟩ := (leadsWith_iff _ _).mp hl
    subst ht0
    simp only [List.drop_left] at h
    cases hg : greedyFrom t0 t0.length with
    | none => rw [hg] at h; cases h
    | some pk =>
      obtain ⟨k, sfx⟩ := pk
      rw [hg] at h
      dsimp only [] at h
      injection h with h
      obtain ⟨h1k, hsf, hnl⟩ := greedyFrom_sound t0 t0.length k sfx hg
      obtain ⟨hor, b, hb⟩ := suffixAt_sound _ _ hsf
      have htk : t0 = t0.take k ++ (sfx ++ b) := by
        conv_lhs => rw [← List.take_append_drop k t0]
        rw [hb]
      refine ⟨t0.take k, sfx, b, by rw [← htk], ?_, ?_, hnl, hor⟩
      · rw [← h]
      · intro hnil
        have h0 : t0.drop k ≠ [] := by
          rw [hb]
          rcases hor with hp | hp <;> subst hp <;> simp [sfxPages, sfxWorkers]
        have hlen : k < t0.length := by
          by_contra hc
          exact h0 (List.drop_eq_nil_of_le (by omega))
        have : (t0.take k).length = k := List.length_take_of_le (by omega)
        rw [hnil] at this
        simp at this
        omega
  · rw [if_neg hl] at h
    cases h

theorem matchAt_complete (mid sfx b : List Char) (hmid : mid ≠ [])
    (hnl : hasNewline mid = false) (hsfx : sfx = sfxPages ∨ sfx = sfxWorkers) :
    matchAt (httpsChars ++ (mid ++ (sfx ++ b))) ≠ none := by
  unfold matchAt
  rw [if_pos (leadsWith_append_self _ _)]
  rw [List.drop_left]
  have hk1 : 1 ≤ mid.length := by
    cases mid with
    | nil => exact absurd rfl hmid
    | cons _ _ => simp
  have hkle : mid.length ≤ (mid ++ (sfx ++ b)).length := by
    simp [List.length_append]
  have hdropk : (mid ++ (sfx ++ b)).drop mid.length = sfx ++ b :=
    List.drop_left _ _
  have htakek : (mid ++ (sfx ++ b)).take mid.length = mid :=
    List.take_left _ _
  have hsfxne : suffixAt ((mid ++ (sfx ++ b)).drop mid.length) ≠ none := by
    rw [hdropk]
    rcases hsfx with hp | hp <;> subst hp
    · rw [suffixAt_of_pages]; simp
    · rw [suffixAt_of_workers]; simp
  have hng := greedyFrom_complete (mid ++ (sfx ++ b)) (mid ++ (sfx ++ b)).length
    mid.length hk1 hkle hsfxne (by rw [htakek]; exact hnl)
  have hd : (httpsChars ++ (mid ++ (sfx ++ b))).drop httpsChars.length =
      mid ++ (sfx ++ b) := List.drop_left _ _
  simp only [hd]
  obtain ⟨p, hp⟩ := Option.ne_none_iff_exists'.mp hng
  rw [hp]
  simp

theorem firstMatch_sound (s m : List Char) (h : firstMatch s = some m) :
    HasDeployUrl s := by
  induction s with
  | nil => simp [firstMatch] at h
  | cons c cs ih =>
    unfold firstMatch at h
    cases hm : matchAt (c :: cs) with
    | some m0 =>
      obtain ⟨mid, sfx, t, hcs, _, hmid, hnl, hor⟩ := matchAt_sound _ _ hm
      exact ⟨[], mid, sfx, t, by simpa using hcs, hmid, hnl, hor⟩
    | none =>
      rw [hm] at h
      dsimp only [] at h
      obtain ⟨a, mid, sfx, b, hcs, h2, h3, h4⟩ := ih h
      exact ⟨c :: a, mid, sfx, b, by simp [hcs], h2, h3, h4⟩

theorem firstMatch_complete (s : List Char) (h : HasDeployUrl s) :
    firstMatch s ≠ none := by
  obtain ⟨a, mid, sfx, b, hs, hmid, hnl, hor⟩ := h
  subst hs
  induction a with
  | nil =>
    rw [List.nil_append]
    have hne := matchAt_complete mid sfx b hmid hnl hor
    cases hcs : (httpsChars ++ (mid ++ (sfx ++ b))) with
    | nil => rw [hcs] at hne; exact absurd rfl hne
    | cons c cs =>
      rw [hcs] at hne
      unfold firstMatch
      cases hm : matchAt (c :: cs) with
      | none => exact absurd hm hne
      | some m0 => simp
  | cons x a' ih =>
    rw [List.cons_append]
    unfold firstMatch
    cases hm : matchAt (x :: (a' ++ (httpsChars ++ (mid ++ (sfx ++ b))))) with
    | some m0 => simp
    | none =>
      dsimp only []
      exact ih

theorem firstMatch_eq_none (s : List Char) (h : ¬ HasDeployUrl s) :
    firstMatch s = none := by
  cases hm : firstMatch s with
  | none => rfl
  | some m => exact absurd (firstMatch_sound s m hm) h

/-- C3: when the deploy command's captured output holds no substring
matching an https URL with host ending in `.pages.dev` or `.workers.dev`,
`runDeploy` — having invoked the deploy command, which exited
successfully — crashes with the no-deployment-url message; the context
carried at the crash is the unchanged input context, so `deployedUrl` is
never set. -/
theorem no_url_in_output_crashes (env : DeployEnv) (ctx : PagesGeneratorContext)
    (out : String) (hout : env.deployOutput = .ok out)
    (hno : ¬ HasDeployUrl out.toList)
    (hdep : ctx.args.deploy ≠ some false)
    (hacct : ((ctx.account.map Account.id).getD "") ≠ "") :
    runDeploy env ctx =
      (.error (.crash "Failed to find deployment url.", ctx),
        [Eff.cmd (deployCmdOf env ctx)]) := by
  have hfm := firstMatch_eq_none out.toList hno
  simp only [String.toList] at hfm
  simp [runDeploy, hout, hdep, hacct, hfm]

/-- Witness for C3: a successful deploy whose output holds no URL. -/
theorem no_url_in_output_crashes_witness :
    runDeploy
      { npm := "npm", confirmDeploy := true, loginSuccess := true,
        accounts := [("acme", "acct_1")], selectAnswer := "",
        deployOutput := .ok "build complete" }
      { args := { deploy := some true, git := none, openIn := none },
        project := { name := "foo", path := "/home/user/foo" },
        account := some { id := "acct_1", name := some "acme" },
        framework := none, deployedUrl := none } =
      (.error (.crash "Failed to find deployment url.",
          { args := { deploy := some true, git := none, openIn := none },
            project := { name := "foo", path := "/home/user/foo" },
            account := some { id := "acct_1", name := some "acme" },
            framework := none, deployedUrl := none }),
        [Eff.cmd "npm run deploy"]) := by
  have h := no_url_in_output_crashes
    { npm := "npm", confirmDeploy := true, loginSuccess := true,
      accounts := [("acme", "acct_1")], selectAnswer := "",
      deployOutput := .ok "build complete" }
    { args := { deploy := some true, git := none, openIn := none },
      project := { name := "foo", path := "/home/user/foo" },
      account := some { id := "acct_1", name := some "acme" },
      framework := none, deployedUrl := none }
    "build complete" rfl
    (fun hurl => firstMatch_complete _ hurl (by decide))
    (by decide) (by decide)
  rw [h]
  decide

theorem splitOnChar_ne_nil (sep : Char) (l : List Char) :
    splitOnChar sep l ≠ [] := by
  cases l with
  | nil => simp [splitOnChar]
  | cons c cs =>
    unfold splitOnChar
    by_cases h : (c == sep) = true
    · rw [if_pos h]; simp
    · rw [if_neg h]
      cases hr : splitOnChar sep cs with
      | nil => simp
      | cons h0 t0 => simp

theorem joinSep_splitOnChar (sep : Char) (l : List Char) :
    joinSep sep (splitOnChar sep l) = l := by
  induction l with
  | nil => rfl
  | cons c cs ih =>
    unfold splitOnChar
    by_cases h : (c == sep) = true
    · rw [if_pos h]
      cases hr : splitOnChar sep cs with
      | nil => exact absurd hr (splitOnChar_ne_nil sep cs)
      | cons h0 t0 =>
        have e : joinSep sep ([] :: h0 :: t0) = sep :: joinSep sep (h0 :: t0) := rfl
        rw [e, ← hr, ih]
        have hc : c = sep := eq_of_beq h
        rw [hc]
    · rw [if_neg h]
      cases hr : splitOnChar sep cs with
      | nil => exact absurd hr (splitOnChar_ne_nil sep cs)
      | cons h0 t0 =>
        cases t0 with
        | nil =>
          have e : joinSep sep [c :: h0] = c :: h0 := rfl
          rw [e]
          have := ih
          rw [hr] at this
          have e2 : joinSep sep [h0] = h0 := rfl
          rw [e2] at this
          rw [this]
        | cons h1 t1 =>
          have e : joinSep sep ((c :: h0) :: h1 :: t1) =
              (c :: h0) ++ sep :: joinSep sep (h1 :: t1) := rfl
          rw [e]
          have := ih
          rw [hr] at this
          have e2 : joinSep sep (h0 :: h1 :: t1) =
              h0 ++ sep :: joinSep sep (h1 :: t1) := rfl
          rw [e2] at this
          rw [List.cons_append, this]

theorem splitOnChar_sep_not_mem (sep : Char) (l : List Char) :
    ∀ p ∈ splitOnChar sep l, sep ∉ p := by
  induction l with
  | nil =>
    intro p hp
    simp [splitOnChar] at hp
    subst hp
    simp
  | cons c cs ih =>
    intro p hp
    unfold splitOnChar at hp
    by_cases h : (c == sep) = true
    · rw [if_pos h] at hp
      rcases List.mem_cons.mp hp with h1 | h1
      · subst h1; simp
      · exact ih p h1
    · rw [if_neg h] at hp
      cases hr : splitOnChar sep cs with
      | nil => exact absurd hr (splitOnChar_ne_nil sep cs)
      | cons h0 t0 =>
        rw [hr] at hp
        rcases List.mem_cons.mp hp with h1 | h1
        · subst h1
          intro hmem
          rcases List.mem_cons.mp hmem with hc | hc
          · exact h (by rw [hc]; exact beq_self_eq_true c)
          · exact ih h0 (by rw [hr]; exact List.mem_cons_self h0 t0) hc
        · exact ih p (by rw [hr]; exact List.mem_cons_of_mem h0 h1)

theorem joinSep_append (sep : Char) (xs ys : List (List Char)) (hx : xs ≠ [])
    (hy : ys ≠ []) :
    joinSep sep (xs ++ ys) = joinSep sep xs ++ sep :: joinSep sep ys := by
  induction xs with
  | nil => exact absurd rfl hx
  | cons x xt ih =>
    cases xt with
    | nil =>
      cases ys with
      | nil => exact absurd rfl hy
      | cons y yt => rfl
    | cons x1 xt1 =>
      have e : joinSep sep ((x :: x1 :: xt1) ++ ys) =
          x ++ sep :: joinSep sep ((x1 :: xt1) ++ ys) := rfl
      rw [e, ih (by simp)]
      have e2 : joinSep sep (x :: x1 :: xt1) = x ++ sep :: joinSep sep (x1 :: xt1) := rfl
      rw [e2]
      simp

theorem splitOnChar_join_single (sep : Char) (x : List Char) (hx : sep ∉ x) :
    splitOnChar sep x = [x] := by
  induction x with
  | nil => rfl
  | cons c cs ih =>
    have hc : (c == sep) = false := by
      rw [beq_eq_false_iff_ne]
      intro e
      exact hx (e ▸ List.mem_cons_self c cs)
    unfold splitOnChar
    rw [if_neg (by simp [hc])]
    rw [ih (fun hm => hx (List.mem_cons_of_mem c hm))]

theorem splitOnChar_append_sep (sep : Char) (x t : List Char) (hx : sep ∉ x) :
    splitOnChar sep (x ++ sep :: t) = x :: splitOnChar sep t := by
  induction x with
  | nil =>
    rw [List.nil_append]
    conv_lhs => unfold splitOnChar
    rw [if_pos (beq_self_eq_true sep)]
  | cons c cs ih =>
    have hc : (c == sep) = false := by
      rw [beq_eq_false_iff_ne]
      intro e
      exact hx (e ▸ List.mem_cons_self c cs)
    rw [List.cons_append]
    conv_lhs => unfold splitOnChar
    rw [if_neg (by simp [hc])]
    rw [ih (fun hm => hx (List.mem_cons_of_mem c hm))]

theorem splitOnChar_joinSep (sep : Char) (ls : List (List Char)) (hne : ls ≠ [])
    (hfree : ∀ p ∈ ls, sep ∉ p) :
    splitOnChar sep (joinSep sep ls) = ls := by
  induction ls with
  | nil => exact absurd rfl hne
  | cons x xt ih =>
    cases xt with
    | nil => exact splitOnChar_join_single sep x (hfree x (List.mem_cons_self x []))
    | cons y yt =>
      have e : joinSep sep (x :: y :: yt) = x ++ sep :: joinSep sep (y :: yt) := rfl
      rw [e, splitOnChar_append_sep sep x _ (hfree x (List.mem_cons_self x (y :: yt)))]
      rw [ih (by simp) (fun p hp => hfree p (List.mem_cons_of_mem x hp))]

theorem breakOn_of_not_hasSub (sep l : List Char) (h : hasSub sep l = false) :
    breakOn sep l = none := by
  induction l with
  | nil => rfl
  | cons c cs ih =>
    unfold hasSub at h
    rw [Bool.or_eq_false_iff] at h
    unfold breakOn
    rw [if_neg (by simp [h.1])]
    rw [ih h.2]

theorem breakOn_https (h : List Char) :
    breakOn protoSep (httpsChars ++ h) = some (httpsName, h) := rfl

theorem mem_colon_of_hasSub (l : List Char) (h : hasSub protoSep l = true) :
    ':' ∈ l := by
  induction l with
  | nil => exact absurd h (by decide)
  | cons c cs ih =>
    unfold hasSub at h
    rw [Bool.or_eq_true] at h
    rcases h with h1 | h1
    · have h2 := h1
      rw [show protoSep = ':' :: ['/', '/'] from rfl] at h2
      unfold leadsWith at h2
      rw [Bool.and_eq_true] at h2
      have h4 : ':' = c := eq_of_beq h2.1
      rw [h4]
      exact List.mem_cons_self c cs
    · exact List.mem_cons_of_mem c (ih h1)

theorem hasSub_of_append (pat a s : List Char) (h : hasSub pat (a ++ s) = false) :
    hasSub pat s = false := by
  induction a with
  | nil => simpa using h
  | cons c a2 ih =>
    rw [List.cons_append] at h
    unfold hasSub at h
    rw [Bool.or_eq_false_iff] at h
    exact ih h.2

theorem endsWithL_iff (sfx l : List Char) :
    endsWithL sfx l = true ↔ ∃ p, l = p ++ sfx := by
  unfold endsWithL
  rw [leadsWith_iff]
  constructor
  · rintro ⟨t, ht⟩
    refine ⟨t.reverse, ?_⟩
    have h2 := congrArg List.reverse ht
    simpa using h2
  · rintro ⟨p, hp⟩
    exact ⟨p.reverse, by rw [hp]; simp⟩

theorem not_hasSub_protoSep_of_colon (h : List Char) (hcolon : ':' ∉ h) :
    hasSub protoSep h = false := by
  cases hs : hasSub protoSep h
  · rfl
  · exact absurd (mem_colon_of_hasSub h hs) hcolon

theorem canonicalize_general (h : List Char) (hcolon : ':' ∉ h)
    (hends : endsWithL sfxPages h = true) :
    canonicalizeListUrl (httpsChars ++ h) =
      some (httpsChars ++ joinSep '.'
        ((splitOnChar '.' h).drop ((splitOnChar '.' h).length - 3))) := by
  have hsub : hasSub protoSep h = false := not_hasSub_protoSep_of_colon h hcolon
  have hendsUrl : endsWithL sfxPages (httpsChars ++ h) = true := by
    obtain ⟨p, hp⟩ := (endsWithL_iff _ _).mp hends
    exact (endsWithL_iff _ _).mpr ⟨httpsChars ++ p, by rw [hp, List.append_assoc]⟩
  unfold canonicalizeListUrl
  rw [if_pos hendsUrl]
  rw [breakOn_https]
  dsimp only []
  rw [breakOn_of_not_hasSub protoSep h hsub]
  dsimp only []
  rfl

/-- C2: for every deploy output whose extracted URL host ends in the
static-site suffix `.pages.dev`, canonicalization keeps only the last 3
dot-separated host labels; concretely, a run whose captured output is
`https://abc123.myproj.pages.dev` stores
`deployedUrl = https://myproj.pages.dev`, and one whose output is
`https://myworker.example.workers.dev` stores it unchanged because its
suffix is not `pages.dev`. -/
theorem pages_url_canonical_form :
    (∀ (out h : List Char), firstMatch out = some (httpsChars ++ h) →
      ':' ∉ h → endsWithL sfxPages h = true →
      canonicalizeListUrl (httpsChars ++ h) =
        some (httpsChars ++ joinSep '.'
          ((splitOnChar '.' h).drop ((splitOnChar '.' h).length - 3)))) ∧
    runDeploy
      { npm := "npm", confirmDeploy := true, loginSuccess := true,
        accounts := [("acme", "acct_1")], selectAnswer := "",
        deployOutput := .ok "https://abc123.myproj.pages.dev" }
      { args := { deploy := some true, git := none, openIn := none },
        project := { name := "foo", path := "/home/user/foo" },
        account := some { id := "acct_1", name := some "acme" },
        framework := none, deployedUrl := none } =
      (.ok { args := { deploy := some true, git := none, openIn := none },
             project := { name := "foo", path := "/home/user/foo" },
             account := some { id := "acct_1", name := some "acme" },
             framework := none, deployedUrl := some "https://myproj.pages.dev" },
        [Eff.cmd "npm run deploy"]) ∧
    runDeploy
      { npm := "npm", confirmDeploy := true, loginSuccess := true,
        accounts := [("acme", "acct_1")], selectAnswer := "",
        deployOutput := .ok "https://myworker.example.workers.dev" }
      { args := { deploy := some true, git := none, openIn := none },
        project := { name := "foo", path := "/home/user/foo" },
        account := some { id := "acct_1", name := some "acme" },
        framework := none, deployedUrl := none } =
      (.ok { args := { deploy := some true, git := none, openIn := none },
             project := { name := "foo", path := "/home/user/foo" },
             account := some { id := "acct_1", name := some "acme" },
             framework := none,
             deployedUrl := some "https://myworker.example.workers.dev" },
        [Eff.cmd "npm run deploy"]) := by
  refine ⟨?_, by decide, by decide⟩
  intro out h _ hcolon hends
  exact canonicalize_general h hcolon hends

/-- Witness for C2: the general conjunct applied at the concrete
static-site URL. -/
theorem pages_url_canonical_form_witness :
    canonicalizeListUrl ("https://abc123.myproj.pages.dev".toList) =
      some ("https://myproj.pages.dev".toList) := by
  have h := pages_url_canonical_form.1 ("https://abc123.myproj.pages.dev".toList)
    ("abc123.myproj.pages.dev".toList) (by decide) (by decide) (by decide)
  rw [show ("https://abc123.myproj.pages.dev".toList) =
    httpsChars ++ ("abc123.myproj.pages.dev".toList) from by decide]
  rw [h]
  decide

/-- C10: the `.pages.dev` host rewrite is idempotent — for every https URL
`https://<host>` (a host holds no `:`), a second canonicalization of the
stored result returns it unchanged — and a host with 3 or fewer
dot-separated labels is already returned unchanged by the first
canonicalization. -/
theorem canonicalize_idempotent (h : List Char) (hcolon : ':' ∉ h) :
    (∀ u', canonicalizeListUrl (httpsChars ++ h) = some u' →
      canonicalizeListUrl u' = some u') ∧
    ((splitOnChar '.' h).length ≤ 3 →
      canonicalizeListUrl (httpsChars ++ h) = some (httpsChars ++ h)) := by
  have hsub : hasSub protoSep h = false := not_hasSub_protoSep_of_colon h hcolon
  constructor
  · intro u' hu'
    by_cases hends : endsWithL sfxPages (httpsChars ++ h) = true
    · have hcomp : canonicalizeListUrl (httpsChars ++ h) =
          some (httpsChars ++ joinSep '.'
            ((splitOnChar '.' h).drop ((splitOnChar '.' h).length - 3))) := by
        unfold canonicalizeListUrl
        rw [if_pos hends, breakOn_https]
        dsimp only []
        rw [breakOn_of_not_hasSub protoSep h hsub]
        dsimp only []
        rfl
      rw [hcomp] at hu'
      injection hu' with hu'
      subst hu'
      set parts := splitOnChar '.' h with hparts
      set keep := parts.drop (parts.length - 3) with hkeep
      have hpartsne : parts ≠ [] := splitOnChar_ne_nil '.' h
      have hplen : 0 < parts.length := List.length_pos.mpr hpartsne
      have hkeeplen : keep.length = parts.length - (parts.length - 3) := by
        rw [hkeep]
        exact List.length_drop _ _
      have hkeepne : keep ≠ [] := by
        intro hnil
        rw [hnil] at hkeeplen
        simp at hkeeplen
        omega
      have hkeeple : keep.length ≤ 3 := by omega
      have hkeepfree : ∀ p ∈ keep, '.' ∉ p := by
        intro p hp
        exact splitOnChar_sep_not_mem '.' h p (List.mem_of_mem_drop hp)
      have hjoin : joinSep '.' parts = h := joinSep_splitOnChar '.' h
      have hsuffix : ∃ pre, h = pre ++ joinSep '.' keep := by
        by_cases hle : parts.length ≤ 3
        · have h0 : parts.length - 3 = 0 := by omega
          refine ⟨[], ?_⟩
          rw [hkeep, h0, List.drop_zero, hjoin]
          simp
        · have htake : parts.take (parts.length - 3) ≠ [] := by
            intro hnil
            have h2 := congrArg List.length hnil
            rw [List.length_take] at h2
            simp at h2
            omega
          have hsplit : parts = parts.take (parts.length - 3) ++ keep := by
            rw [hkeep]
            exact (List.take_append_drop _ _).symm
          refine ⟨joinSep '.' (parts.take (parts.length - 3)) ++ ['.'], ?_⟩
          rw [← hjoin]
          conv_lhs => rw [hsplit]
          rw [joinSep_append '.' _ _ htake hkeepne]
          simp
      obtain ⟨pre, hpre⟩ := hsuffix
      have hsub2 : hasSub protoSep (joinSep '.' keep) = false := by
        apply hasSub_of_append protoSep pre
        rw [← hpre]
        exact hsub
      by_cases hends2 : endsWithL sfxPages (httpsChars ++ joinSep '.' keep) = true
      · unfold canonicalizeListUrl
        rw [if_pos hends2, breakOn_https]
        dsimp only []
        rw [breakOn_of_not_hasSub protoSep _ hsub2]
        dsimp only []
        rw [splitOnChar_joinSep '.' keep hkeepne hkeepfree]
        have h0 : keep.length - 3 = 0 := by omega
        rw [h0, List.drop_zero]
        rfl
      · unfold canonicalizeListUrl
        rw [if_neg hends2]
    · have hcomp : canonicalizeListUrl (httpsChars ++ h) =
          some (httpsChars ++ h) := by
        unfold canonicalizeListUrl
        rw [if_neg hends]
      rw [hcomp] at hu'
      injection hu' with hu'
      subst hu'
      unfold canonicalizeListUrl
      rw [if_neg hends]
  · intro hle
    by_cases hends : endsWithL sfxPages (httpsChars ++ h) = true
    · unfold canonicalizeListUrl
      rw [if_pos hends, breakOn_https]
      dsimp only []
      rw [breakOn_of_not_hasSub protoSep h hsub]
      dsimp only []
      have h0 : (splitOnChar '.' h).length - 3 = 0 := by omega
      rw [h0, List.drop_zero, joinSep_splitOnChar]
      rfl
    · unfold canonicalizeListUrl
      rw [if_neg hends]

/-- Witness for C10: re-canonicalizing the stored canonical URL returns it
unchanged. -/
theorem canonicalize_idempotent_witness :
    canonicalizeListUrl ("https://myproj.pages.dev".toList) =
      some ("https://myproj.pages.dev".toList) := by
  have h := (canonicalize_idempotent ("abc123.myproj.pages.dev".toList)
    (by decide)).1 ("https://myproj.pages.dev".toList) (by decide)
  exact h
